import Mathlib

/-!
Verification development for the VisibleEphemeris repository.

The repository contains two versions of the same real-time satellite
visibility monitor:

* `src/Visible_Ephemeris.py` (VERSION `3.0.0-phase1`, called the *Phase-1*
  version below), and
* `src/Visible_Epheremis.py` (VERSION `2.5.7-apogee-ssefix`, called the
  *older* version below).

This file gives a shallow embedding of the pure computational content of
both versions and proves or refutes the specification claims about them.

Modelling conventions:

* Python floats are modelled as rationals (`ℚ`).  All claims under study are
  about comparison/ordering/normalisation logic, which is exact; none are
  about float rounding.
* Calls into the external ephemeris collaborator (skyfield) are modelled as
  inputs: each tracked object carries the *result* of its per-tick position
  query and of its sunlit query, with `Option` capturing "the call raised".
* Python strings are modelled as `List Char`; `str.lower`/`str.upper` use
  Lean's ASCII case mapping (all names in play are ASCII).
* `np.argsort(..., kind='quicksort')` is embedded faithfully as numpy's
  introsort over an index list (see `aqsLoop below`), including median-of-3
  pivoting, the `SMALL_QUICKSORT = 15` insertion-sort cutoff, the
  `2*msb(n)` depth limit, and the heapsort fallback, following
  `numpy/core/src/npysort/quicksort.c.src` (`aquicksort_double`) and
  `heapsort.c.src` (`aheapsort_double`).  The `DOUBLE_LT` NaN clause is
  inapplicable over `ℚ`.
-/

namespace VisEph

/-! ## Python `%` on reals (`az.degrees % 360.0`, `(az.degrees + 360.0) % 360.0`)

Python's float `%` satisfies `a % b = a - b * ⌊a / b⌋` (result has the sign
of the divisor); over `ℚ` this is exact. -/

/-- Python modulo on rationals: `a - b * ⌊a / b⌋`. -/
def qmod (a b : ℚ) : ℚ := a - b * ⌊a / b⌋

theorem qmod_eq_mul_fract (a : ℚ) {b : ℚ} (hb : 0 < b) :
    qmod a b = b * Int.fract (a / b) := by
  have hbne : b ≠ 0 := ne_of_gt hb
  rw [qmod, Int.fract, mul_sub, mul_div_cancel₀ a hbne]

theorem qmod_nonneg (a : ℚ) {b : ℚ} (hb : 0 < b) : 0 ≤ qmod a b := by
  rw [qmod_eq_mul_fract a hb]
  have h := Int.fract_nonneg (a / b)
  positivity

theorem qmod_lt (a : ℚ) {b : ℚ} (hb : 0 < b) : qmod a b < b := by
  have h : Int.fract (a / b) < 1 := Int.fract_lt_one (a / b)
  rw [qmod_eq_mul_fract a hb]
  calc b * Int.fract (a / b) < b * 1 := by
        exact (mul_lt_mul_left hb).mpr h
    _ = b := mul_one b

/-! ## String utilities

`abbreviate_name` (identical in both versions) is
```python
n = re.sub(r"\[[^\]]*\]", "", name)
n = re.sub(r"\([^)]*\)", "", n)
return " ".join(n.split())
```
`re.sub` scans left to right; a match of `\[[^\]]*\]` starting at a `[`
consumes up to and including the *first* following `]` (and fails when no
`]` follows).  `stripDelims o c` embeds one such pass generically. -/

/-- One `re.sub(r"\[[^\]]*\]", "", ·)`-style pass: at an opening delimiter
with a closing delimiter somewhere after it, drop through the first closing
delimiter and continue; otherwise keep the character. -/
def stripDelims (o c : Char) : List Char → List Char
  | [] => []
  | x :: xs =>
    if x = o ∧ c ∈ xs then
      stripDelims o c ((xs.dropWhile (fun ch => ch ≠ c)).drop 1)
    else
      x :: stripDelims o c xs
termination_by l => l.length
decreasing_by
  · simp only [List.length_cons]
    have h1 : (xs.dropWhile (fun ch => ch ≠ c)).length ≤ xs.length :=
      (List.dropWhile_sublist _).length_le
    have h2 : ((xs.dropWhile (fun ch => ch ≠ c)).drop 1).length ≤
        (xs.dropWhile (fun ch => ch ≠ c)).length := (List.drop_sublist _ _).length_le
    omega
  · simp only [List.length_cons]
    omega

/-- Whitespace characters recognised by Python's `str.split()` (ASCII part). -/
def wsChar (ch : Char) : Bool :=
  ch = ' ' ∨ ch = '\t' ∨ ch = '\n' ∨ ch = '\x0b' ∨ ch = '\x0c' ∨ ch = '\r'

/-- Python `str.split()`: the maximal runs of non-whitespace characters. -/
def wordsOf : List Char → List (List Char)
  | [] => []
  | x :: xs =>
    if wsChar x then wordsOf xs
    else (x :: xs.takeWhile (fun ch => ¬ wsChar ch)) ::
      wordsOf (xs.dropWhile (fun ch => ¬ wsChar ch))
termination_by l => l.length
decreasing_by
  · simp only [List.length_cons]
    omega
  · simp only [List.length_cons]
    have := (List.dropWhile_sublist (l := xs) (fun ch => ¬ wsChar ch)).length_le
    omega

/-- Python `" ".join(ws)` on a list of words. -/
def joinSp : List (List Char) → List Char
  | [] => []
  | [w] => w
  | w :: ws => w ++ ' ' :: joinSp ws

/-- Python `" ".join(s.split())`: collapse whitespace runs to single spaces,
trimming the ends. -/
def collapseWs (l : List Char) : List Char := joinSp (wordsOf l)

/-- Embedding of `abbreviate_name`: strip `[...]` segments, then `(...)` segments, then
collapse whitespace. -/
def abbreviateName (name : List Char) : List Char :=
  collapseWs (stripDelims '(' ')' (stripDelims '[' ']' name))

/-- No opening delimiter is ever followed (anywhere later) by a closing
delimiter: exactly the strings on which a `stripDelims` pass matches
nothing. -/
def NoPair (o c : Char) : List Char → Prop
  | [] => True
  | x :: xs => (x = o → c ∉ xs) ∧ NoPair o c xs

/-! ## Name include/exclude filter (`name_matches`, identical in both versions)

```python
lname = name.lower()
if exclude:
    for pat in exclude:
        if pat.lower() in lname: return False
if include:
    for pat in include:
        if pat.lower() in lname: return True
    return False
return True
```
`compile_mask_list` returns `None` or a non-empty list; an absent mask is
modelled as `[]` (Python's `if exclude:` treats both identically). -/

/-- Python `pat.lower() in name.lower()`: case-insensitive substring test. -/
def lowerSubstr (pat name : List Char) : Bool :=
  decide ((pat.map Char.toLower) <:+: (name.map Char.toLower))

/-- Embedding of `name_matches(name, include, exclude)`. -/
def nameMatches (name : List Char) (includes excludes : List (List Char)) : Bool :=
  if excludes.any (fun pat => lowerSubstr pat name) then false
  else if includes.isEmpty then true
  else includes.any (fun pat => lowerSubstr pat name)

/-- The special-highlight name fragments (`SPECIAL_SATELLITES`, Phase-1 only). -/
def specialSatNames : List (List Char) :=
  ["ISS".toList, "HUBBLE".toList, "TIANGONG".toList, "CSS".toList, "HST".toList]

/-- Embedding of `is_special_satellite` (Phase-1): some special fragment occurs in the
upper-cased name. -/
def isSpecialSatellite (name : List Char) : Bool :=
  specialSatNames.any (fun sp => decide (sp <:+: (name.map Char.toUpper)))

/-! ## Apogee filtering

Phase-1 `validate_orbital_elements` (with `a` already converted to km by
`sat.model.a * sat.model.radiusearthkm`):
```python
if e < 0.0 or e >= 1.0 or a <= 0.0: return False
apogee_alt = a * (1.0 + e) - EARTH_RADIUS_KM
return apogee_alt <= max_apogee_km
```
The older version's filter loop has no validity check:
```python
apogee_alt = a * (1.0 + e) - earth_radius_km
if apogee_alt <= args.max_apogee: kept.append(sat)
```
Both use the constant 6371.0 km. -/

def earthRadiusKm : ℚ := 6371

/-- Apogee altitude above the reference body. -/
def apogeeAlt (a e : ℚ) : ℚ := a * (1 + e) - earthRadiusKm

/-- Phase-1 `validate_orbital_elements` restricted to its arithmetic core
(the `hasattr`/conversion-failure paths also return `False` and carry no
orbital data). -/
def validateOrbitalElements (a e maxApogeeKm : ℚ) : Bool :=
  if e < 0 ∨ 1 ≤ e ∨ a ≤ 0 then false
  else decide (apogeeAlt a e ≤ maxApogeeKm)

/-- The older version's apogee keep-test. -/
def oldApogeeKeep (a e maxApogeeKm : ℚ) : Bool :=
  decide (apogeeAlt a e ≤ maxApogeeKm)

/-! ## TLE cache path resolution

A POSIX path is modelled as an absolute flag plus its components
(`pathlib.PurePosixPath` semantics: joining onto an absolute right operand
discards the left operand).  `CACHE_DIR = Path("_skyfield_cache")`.

Phase-1 (`tle_path = CACHE_DIR / args.tle_file`):
the user string is joined wholesale under the cache dir.

Older version:
```python
user_tle = Path(args.tle_file)
if user_tle.is_absolute(): tle_path = user_tle
else: tle_path = CACHE_DIR / user_tle.name
```
-/

structure PyPath where
  absolute : Bool
  components : List String
deriving DecidableEq, Repr

/-- Name of the canonical cache root directory. -/
def cacheRootName : String := "_skyfield_cache"

/-- The `pathlib` join `CACHE_DIR / p`. -/
def cacheJoin (p : PyPath) : PyPath :=
  if p.absolute then p else ⟨false, [cacheRootName] ++ p.components⟩

/-- Embedding of `Path.name`: the final path component (empty for a bare root). -/
def pyName (p : PyPath) : String := (p.components.getLast?).getD ""

/-- Phase-1 resolution: `CACHE_DIR / args.tle_file`. -/
def resolveTlePhase1 (p : PyPath) : PyPath := cacheJoin p

/-- Older-version resolution: absolute paths pass through, relative inputs
are reduced to their final component under the cache root. -/
def resolveTleOld (p : PyPath) : PyPath :=
  if p.absolute then p else ⟨false, [cacheRootName, pyName p]⟩

/-! ## `np.argsort(values, kind='quicksort')`

Both versions rank candidates with `idx[np.argsort(-alts[idx])]`.  numpy's
default `kind='quicksort'` is an introsort over the index array `tosort`
(initially `0..n-1`), comparing through the value array `v`:

* while the active range is longer than `SMALL_QUICKSORT = 15`, partition it
  with a median-of-3 pivot and two sentinel scans, pushing the larger half on
  an explicit stack; a depth budget of `2 * msb(n)` guards against quadratic
  behaviour, falling back to heapsort on exhaustion;
* ranges of at most 16 elements are finished with a (stable) insertion sort.

The working index array is modelled as a `List Nat` with `List.set` /
`List.getD` playing the role of the in-place stores and loads; the scan and
sift loops take a fuel argument that is amply larger than any bound the
algorithm can reach, so the embedding is total without `partial`. -/

/-- Load from the index array (out-of-range loads are never reached by the
algorithm; they default to 0). -/
def aget (l : List Nat) (i : Nat) : Nat := l.getD i 0

/-- Load from the value array. -/
def qget (v : List ℚ) (i : Nat) : ℚ := v.getD i 0

/-- Swap `INTP_SWAP(*i, *j)` on the index array. -/
def aswap (l : List Nat) (i j : Nat) : List Nat :=
  (l.set i (aget l j)).set j (aget l i)

/-- Comparison `DOUBLE_LT` over `ℚ` (the NaN clause cannot fire). -/
def qlt (a b : ℚ) : Bool := decide (a < b)

/-- Value at the index stored at position `i`: `v[tosort[i]]`. -/
def vat (v : List ℚ) (l : List Nat) (i : Nat) : ℚ := qget v (aget l i)

/-- One step of the insertion-sort phase.  The C loop
```c
vi = *pi; vp = v[vi]; pj = pi; pk = pi - 1;
while (pj > pl && DOUBLE_LT(vp, v[*pk])) { *pj-- = *pk--; }
*pj = vi;
```
shifts the maximal suffix of the already-processed prefix whose values are
strictly greater than `vp` one slot right and drops `vi` in front of it. -/
def insStep (v : List ℚ) (acc : List Nat) (x : Nat) : List Nat :=
  let shifted := acc.reverse.takeWhile (fun b => qlt (qget v x) (qget v b))
  let keptRev := acc.reverse.dropWhile (fun b => qlt (qget v x) (qget v b))
  keptRev.reverse ++ x :: shifted.reverse

/-- Write a block back into the index array starting at position `p`. -/
def writeBack : List Nat → Nat → List Nat → List Nat
  | l, _, [] => l
  | l, p, x :: xs => writeBack (l.set p x) (p + 1) xs

/-- The insertion-sort phase over `tosort[pl..pr]`. -/
def insertionPass (v : List ℚ) (l : List Nat) (pl pr : Nat) : List Nat :=
  writeBack l pl (((l.drop pl).take (pr + 1 - pl)).foldl (insStep v) [])

/-- Heap load, 1-based within the range starting at `pl` (`a = tosort - 1`). -/
def hget (l : List Nat) (pl j : Nat) : Nat := aget l (pl + j - 1)

/-- Heap store, 1-based within the range starting at `pl`. -/
def hset (l : List Nat) (pl j : Nat) (x : Nat) : List Nat := l.set (pl + j - 1) x

/-- The `aheapsort` sift-down loop: starting from hole `i` with child `j`,
walk the larger-child path down while it beats `tmp`, then place `tmp`. -/
def hsift (v : List ℚ) (pl : Nat) (tmp : Nat) (n : Nat) :
    Nat → Nat → Nat → List Nat → List Nat
  | 0, i, _, l => hset l pl i tmp
  | fuel + 1, i, j, l =>
    if j ≤ n then
      let j' := if j < n ∧ qlt (qget v (hget l pl j)) (qget v (hget l pl (j + 1)))
        then j + 1 else j
      if qlt (qget v tmp) (qget v (hget l pl j')) then
        hsift v pl tmp n fuel j' (j' + j') (hset l pl i (hget l pl j'))
      else hset l pl i tmp
    else hset l pl i tmp

/-- The `aheapsort` build phase: sift down roots `lv, lv-1, ..., 1`. -/
def hbuild (v : List ℚ) (pl n : Nat) : Nat → List Nat → List Nat
  | 0, l => l
  | lv + 1, l =>
    hbuild v pl n lv
      (hsift v pl (hget l pl (lv + 1)) n (n + 2) (lv + 1) (2 * (lv + 1)) l)

/-- The `aheapsort` extract phase: repeatedly move the max to the end of the
shrinking heap and re-sift. -/
def hextract (v : List ℚ) (pl : Nat) : Nat → List Nat → List Nat
  | 0, l => l
  | 1, l => l
  | m + 2, l =>
    let tmp := hget l pl (m + 2)
    let l1 := hset l pl (m + 2) (hget l pl 1)
    hextract v pl (m + 1) (hsift v pl tmp (m + 1) (m + 3) 1 2 l1)

/-- Embedding of `aheapsort_double` on `tosort[pl .. pl+num-1]`. -/
def aheapsortRange (v : List ℚ) (l : List Nat) (pl num : Nat) : List Nat :=
  hextract v pl num (hbuild v pl num (num / 2) l)

/-- The ascending sentinel scan `do ++pi; while (DOUBLE_LT(v[*pi], vp));`. -/
def scanUp (v : List ℚ) (vp : ℚ) (l : List Nat) : Nat → Nat → Nat
  | 0, pi => pi + 1
  | fuel + 1, pi =>
    let pi' := pi + 1
    if qlt (vat v l pi') vp then scanUp v vp l fuel pi' else pi'

/-- The descending sentinel scan `do --pj; while (DOUBLE_LT(vp, v[*pj]));`. -/
def scanDown (v : List ℚ) (vp : ℚ) (l : List Nat) : Nat → Nat → Nat
  | 0, pj => pj - 1
  | fuel + 1, pj =>
    let pj' := pj - 1
    if qlt vp (vat v l pj') then scanDown v vp l fuel pj' else pj'

/-- The partition exchange loop; returns the final `pi` and the array. -/
def partLoop (v : List ℚ) (vp : ℚ) (sfuel : Nat) :
    Nat → Nat → Nat → List Nat → Nat × List Nat
  | 0, pi, _, l => (pi, l)
  | fuel + 1, pi, pj, l =>
    let pi' := scanUp v vp l sfuel pi
    let pj' := scanDown v vp l sfuel pj
    if pj' ≤ pi' then (pi', l)
    else partLoop v vp sfuel fuel pi' pj' (aswap l pi' pj')

/-- The `aquicksort_double` driver loop.  One unit of outer fuel is spent per
iteration of the C `while`-body or per stack pop; the fuel supplied by
`npArgsortList` can never be exhausted. -/
def aqsLoop (v : List ℚ) : Nat → Nat → Nat → List Nat → List (Nat × Nat) → Int → List Nat
  | 0, _, _, l, _, _ => l
  | fuel + 1, pl, pr, l, stack, depth =>
    if 15 < pr - pl then
      if depth < 0 then
        let l' := aheapsortRange v l pl (pr - pl + 1)
        match stack with
        | [] => l'
        | (pl', pr') :: st => aqsLoop v fuel pl' pr' l' st (depth - 1)
      else
        let pm := pl + (pr - pl) / 2
        let l1 := if qlt (vat v l pm) (vat v l pl) then aswap l pm pl else l
        let l2 := if qlt (vat v l1 pr) (vat v l1 pm) then aswap l1 pr pm else l1
        let l3 := if qlt (vat v l2 pm) (vat v l2 pl) then aswap l2 pm pl else l2
        let vp := vat v l3 pm
        let l4 := aswap l3 pm (pr - 1)
        let res := partLoop v vp (pr - pl + 2) (pr - pl + 2) pl (pr - 1) l4
        let pi := res.1
        let l6 := aswap res.2 pi (pr - 1)
        if pi - pl < pr - pi then
          aqsLoop v fuel pl (pi - 1) l6 ((pi + 1, pr) :: stack) (depth - 1)
        else
          aqsLoop v fuel (pi + 1) pr l6 ((pl, pi - 1) :: stack) (depth - 1)
    else
      let l' := insertionPass v l pl pr
      match stack with
      | [] => l'
      | (pl', pr') :: st => aqsLoop v fuel pl' pr' l' st depth

/-- Embedding of `np.argsort(v, kind='quicksort')` as an index list. -/
def npArgsortList (v : List ℚ) : List Nat :=
  aqsLoop v (4 * v.length + 8) 0 (v.length - 1) (List.range v.length) []
    (2 * Nat.log2 v.length)

/-! ## The per-tick visibility pipeline

The ephemeris collaborator is external (skyfield); each tracked object
carries the *results* of its two per-tick queries, `Option`-wrapped to model
"the call raised an exception". -/

/-- Result of a successful `(sat - topos).at(t).altaz()` query. -/
structure PosQueryResult where
  altDeg : ℚ
  azDeg : ℚ
  distKm : ℚ
deriving DecidableEq, Repr

/-- A tracked object together with its per-tick query results. -/
structure SatInput where
  name : List Char
  noradId : Int
  posQuery : Option PosQueryResult
  sunlitQuery : Option Bool
deriving DecidableEq, Repr

/-- Placeholder object; shares the sentinel entry of a failed query, so
out-of-range catalog reads (never performed by the real pipeline) are
harmless. -/
def dummySat : SatInput := ⟨[], 0, none, none⟩

/-- Per-object slots of the `alts`/`azs`/`rngs`/`sunlit` arrays. -/
structure Entry where
  alt : ℚ
  az : ℚ
  rng : ℚ
  sunlit : Bool
deriving DecidableEq, Repr

/-- Sentinels stored by the Phase-1 `except` handler: elevation −90°,
azimuth 0, range 0, not sunlit. -/
def sentinelEntry : Entry := ⟨-90, 0, 0, false⟩

/-- Phase-1 per-object computation (`Visible_Ephemeris.py` lines 1149–1167):
a failed position query yields the sentinels; a failed sunlit query defaults
to sunlit; azimuth is reduced `az.degrees % 360.0`. -/
def computeEntry (s : SatInput) : Entry :=
  match s.posQuery with
  | none => sentinelEntry
  | some r =>
    { alt := r.altDeg
      az := qmod r.azDeg 360
      rng := r.distKm
      sunlit := s.sunlitQuery.getD true }

/-- Older-version per-object computation (`Visible_Epheremis.py` lines
457–466): the position query is *not* guarded, so its failure propagates out
of the tick; only the sunlit query has a fallback (`True`); azimuth is
reduced `(az.degrees + 360.0) % 360.0`. -/
def computeEntryOld (s : SatInput) : Option Entry :=
  match s.posQuery with
  | none => none
  | some r =>
    some
      { alt := r.altDeg
        az := qmod (r.azDeg + 360) 360
        rng := r.distKm
        sunlit := s.sunlitQuery.getD true }

/-- Tick-invariant configuration used by the visibility stage (identical
fields in both versions). -/
structure Config where
  minEl : ℚ
  visibleOnly : Bool
  maxsatArg : Int
  sunAltThresh : ℚ
deriving DecidableEq, Repr

/-- Embedding of `is_night = sun_alt <= sun_alt_thresh`. -/
def isNightB (cfg : Config) (sunAlt : ℚ) : Bool := decide (sunAlt ≤ cfg.sunAltThresh)

/-- Embedding of `mask = alts >= min_el; if visible_only: mask &= sunlit & is_night`,
for one slot. -/
def maskB (cfg : Config) (sunAlt : ℚ) (e : Entry) : Bool :=
  decide (cfg.minEl ≤ e.alt) &&
    (if cfg.visibleOnly then e.sunlit && isNightB cfg sunAlt else true)

/-- Embedding of `maxsat = max(1, int(args.maxsat))`. -/
def maxsatEff (cfg : Config) : Nat := (max 1 cfg.maxsatArg).toNat

/-! The ranking stage is shared by both versions and parameterised by the
entry list:
```python
idx = np.where(mask)[0]
idx = idx[np.argsort(-alts[idx])]
idx = idx[:maxsat]
```
-/

/-- Embedding of `np.where(mask)[0]`: indices passing the mask, in catalog order. -/
def candIdx (cfg : Config) (sunAlt : ℚ) (entries : List Entry) : List Nat :=
  (List.range entries.length).filter
    (fun i => maskB cfg sunAlt (entries.getD i sentinelEntry))

/-- Embedding of `-alts[idx]`. -/
def negAlts (cfg : Config) (sunAlt : ℚ) (entries : List Entry) : List ℚ :=
  (candIdx cfg sunAlt entries).map (fun i => -(entries.getD i sentinelEntry).alt)

/-- Embedding of `idx[np.argsort(-alts[idx])]`: candidate indices in rank order. -/
def rankedIdx (cfg : Config) (sunAlt : ℚ) (entries : List Entry) : List Nat :=
  (npArgsortList (negAlts cfg sunAlt entries)).map
    (fun k => (candIdx cfg sunAlt entries).getD k 0)

/-- Embedding of `idx[:maxsat]`. -/
def keptIdx (cfg : Config) (sunAlt : ℚ) (entries : List Entry) : List Nat :=
  (rankedIdx cfg sunAlt entries).take (maxsatEff cfg)

/-- One displayed/streamed row of the Phase-1 version
(`SatelliteObservation`). -/
structure Observation where
  name : List Char
  azimuthDeg : ℚ
  elevationDeg : ℚ
  rangeKm : ℚ
  sunlit : Bool
  isSpecial : Bool
  noradId : Int
deriving DecidableEq, Repr

/-- Embedding of `SatelliteObservation.get_color_code`. -/
def colorCode (o : Observation) : String :=
  if o.isSpecial then "red" else if o.sunlit then "green" else "gray"

/-- Build the Phase-1 observation for one tracked object. -/
def mkObsSat (s : SatInput) : Observation :=
  let e := computeEntry s
  { name := abbreviateName s.name
    azimuthDeg := e.az
    elevationDeg := e.alt
    rangeKm := e.rng
    sunlit := e.sunlit
    isSpecial := isSpecialSatellite s.name
    noradId := s.noradId }

/-- Build the Phase-1 observation for catalog slot `i`. -/
def mkObs (sats : List SatInput) (i : Nat) : Observation :=
  mkObsSat (sats.getD i dummySat)

/-- A completed Phase-1 visibility frame (epoch timestamps are external). -/
structure Frame where
  sunAlt : ℚ
  isNight : Bool
  observations : List Observation
deriving DecidableEq, Repr

/-- Entry arrays of the Phase-1 tick. -/
def entriesP1 (sats : List SatInput) : List Entry := sats.map computeEntry

/-- The Phase-1 tick: always completes with a frame. -/
def tickPhase1 (cfg : Config) (sunAlt : ℚ) (sats : List SatInput) : Frame :=
  { sunAlt := sunAlt
    isNight := isNightB cfg sunAlt
    observations := (keptIdx cfg sunAlt (entriesP1 sats)).map (mkObs sats) }

/-- The full ranked (untruncated) Phase-1 observation sequence. -/
def rankedObsP1 (cfg : Config) (sunAlt : ℚ) (sats : List SatInput) : List Observation :=
  (rankedIdx cfg sunAlt (entriesP1 sats)).map (mkObs sats)

/-- One row of the older version (`(name, az, el, rng)` tuples). -/
structure OldRow where
  name : List Char
  az : ℚ
  el : ℚ
  rangeKm : ℚ
deriving DecidableEq, Repr

/-- A completed frame of the older version. -/
structure OldFrame where
  sunAlt : ℚ
  isNight : Bool
  rows : List OldRow
deriving DecidableEq, Repr

/-- Build the older version's row for catalog slot `i` from its entries. -/
def mkOldRow (sats : List SatInput) (entries : List Entry) (i : Nat) : OldRow :=
  let e := entries.getD i sentinelEntry
  { name := abbreviateName (sats.getD i dummySat).name
    az := e.az
    el := e.alt
    rangeKm := e.rng }

/-- The older version's per-object loop: entries are computed in catalog
order and the first unguarded failure aborts the whole loop. -/
def entriesOld : List SatInput → Option (List Entry)
  | [] => some []
  | s :: ss =>
    match computeEntryOld s with
    | none => none
    | some e =>
      match entriesOld ss with
      | none => none
      | some es => some (e :: es)

/-- The older version's tick: `none` models the tick aborting because some
object's unguarded position query raised. -/
def tickOld (cfg : Config) (sunAlt : ℚ) (sats : List SatInput) : Option OldFrame :=
  match entriesOld sats with
  | none => none
  | some entries =>
    some
      { sunAlt := sunAlt
        isNight := isNightB cfg sunAlt
        rows := (keptIdx cfg sunAlt entries).map (mkOldRow sats entries) }

/-- The full ranked (untruncated) row sequence of the older version. -/
def rankedRowsOld (cfg : Config) (sunAlt : ℚ) (sats : List SatInput)
    (entries : List Entry) : List OldRow :=
  (rankedIdx cfg sunAlt entries).map (mkOldRow sats entries)

/-- Whether one tracked object passes the Phase-1 visibility mask. -/
def satPass (cfg : Config) (sunAlt : ℚ) (s : SatInput) : Bool :=
  maskB cfg sunAlt (computeEntry s)

/-- The ranked Phase-1 observation sequence, computed directly from the
catalog objects that pass the mask (shown equal to `rankedObsP1` below;
used to express per-object failure isolation). -/
def obsFromPassing (filt : List SatInput) : List Observation :=
  (npArgsortList (filt.map (fun s => -(computeEntry s).alt))).map
    (fun k => mkObsSat (filt.getD k dummySat))

/-- The rank order asserted by the specification, expressed on catalog
indices: strictly higher elevation first, ties in catalog order. -/
def rankRel (entries : List Entry) (i j : Nat) : Prop :=
  (entries.getD j sentinelEntry).alt < (entries.getD i sentinelEntry).alt ∨
    ((entries.getD i sentinelEntry).alt = (entries.getD j sentinelEntry).alt ∧ i < j)

instance rankRelDec (entries : List Entry) : DecidableRel (rankRel entries) := fun i j => by
  unfold rankRel
  infer_instance

/-- Ascending order on values with index-order tie-breaking; the order
produced by a stable ascending argsort. -/
def lexLt (v : List ℚ) (i j : Nat) : Prop :=
  qget v i < qget v j ∨ (qget v i = qget v j ∧ i < j)

/-! ## Concrete example inputs

Used by witnesses and counterexamples below. -/

/-- A plain configuration: `--min-el 0`, no `--visible-only`, `--maxsat 40`,
astronomical twilight threshold. -/
def exCfg : Config := ⟨0, false, 40, -18⟩

/-- Same configuration with visible-only mode on. -/
def exCfgVis : Config := ⟨0, true, 40, -18⟩

/-- A satellite whose queries both succeed. -/
def exSat1 : SatInput := ⟨"ISS (ZARYA)".toList, 25544, some ⟨45, 100, 400⟩, some true⟩

/-- A satellite whose position query returns an azimuth of 370°. -/
def exSat2 : SatInput := ⟨"STARLINK-1000".toList, 44000, some ⟨10, 370, 550⟩, some false⟩

/-- A satellite whose position query raises. -/
def exSatFail : SatInput := ⟨"FAILSAT 1".toList, 99999, none, none⟩

/-- A satellite whose position query succeeds but whose sunlit query raises. -/
def exSatSunFail : SatInput := ⟨"SUNFAIL 1".toList, 88888, some ⟨20, 30, 600⟩, none⟩

/-- Seventeen distinct satellites whose elevations are all exactly equal:
the smallest catalog on which numpy's introsort enters its (unstable)
partitioning phase. -/
def tieSats : List SatInput :=
  (List.range 17).map (fun i => ⟨"TIE SAT".toList, (i : Int), some ⟨10, 5, 500⟩, some true⟩)

/-! ## Generic list lemmas -/

theorem dropWhile_head_false {α : Type} (p : α → Bool) :
    ∀ (l : List α) (y : α) (ys : List α), l.dropWhile p = y :: ys → p y = false := by
  intro l
  induction l with
  | nil => intro y ys h; simp [List.dropWhile] at h
  | cons x xs ih =>
    intro y ys h
    rw [List.dropWhile_cons] at h
    by_cases hx : p x = true
    · rw [if_pos hx] at h
      exact ih y ys h
    · rw [if_neg hx] at h
      cases h
      exact Bool.not_eq_true _ |>.mp hx

theorem getD_of_le {α : Type} (l : List α) (n : Nat) (d : α) (h : l.length ≤ n) :
    l.getD n d = d := by
  simp [List.getD_eq_getElem?_getD, List.getElem?_eq_none h]

theorem getD_map_of_lt {α β : Type} (g : α → β) (m : List α) (k : Nat) (d : β) (d' : α)
    (hk : k < m.length) : (m.map g).getD k d = g (m.getD k d') := by
  have hk2 : k < (m.map g).length := by simpa using hk
  rw [List.getD_eq_getElem _ _ hk2, List.getD_eq_getElem _ _ hk, List.getElem_map]

/-- Characterisation of `writeBack` within bounds. -/
theorem writeBack_eq :
    ∀ (s l : List Nat) (p : Nat), p + s.length ≤ l.length →
      writeBack l p s = l.take p ++ s ++ l.drop (p + s.length) := by
  intro s
  induction s with
  | nil => intro l p hp; simp [writeBack]
  | cons x xs ih =>
    intro l p hp
    simp only [List.length_cons] at hp
    have hplt : p < l.length := by omega
    rw [writeBack, ih (l.set p x) (p + 1) (by simp; omega)]
    rw [List.set_eq_take_append_cons_drop, if_pos hplt]
    have htake : (l.take p ++ x :: l.drop (p + 1)).take (p + 1) = l.take p ++ [x] := by
      rw [List.take_append_eq_append_take]
      have h1 : (l.take p).length = p := List.length_take_of_le (Nat.le_of_lt hplt)
      rw [h1]
      simp
    have hdrop : (l.take p ++ x :: l.drop (p + 1)).drop (p + 1 + xs.length) =
        l.drop (p + (xs.length + 1)) := by
      rw [List.drop_append_eq_append_drop]
      have h1 : (l.take p).length = p := List.length_take_of_le (Nat.le_of_lt hplt)
      have h2 : (l.take p).drop (p + 1 + xs.length) = [] := by
        apply List.drop_eq_nil_of_le
        rw [h1]
        omega
      rw [h2, h1]
      have h3 : p + 1 + xs.length - p = xs.length + 1 := by omega
      rw [h3]
      simp only [List.nil_append, List.drop_succ_cons, List.drop_drop]
      congr 1
      omega
    rw [htake, hdrop]
    simp

/-- The indices-then-lookup form of a filtered map equals the direct
filtered map (`np.where` composed with fancy indexing). -/
theorem filter_range_getD_map {α β : Type} (f : α → β) (p : α → Bool) (d : α) :
    ∀ l : List α,
      ((List.range l.length).filter (fun i => p (l.getD i d))).map
          (fun i => f (l.getD i d)) =
        (l.filter p).map f := by
  intro l
  induction l with
  | nil => simp
  | cons x xs ih =>
    have hr : List.range (x :: xs).length = 0 :: (List.range xs.length).map Nat.succ := by
      simpa using List.range_succ_eq_map xs.length
    rw [hr]
    rw [List.filter_cons]
    by_cases hx : p x = true
    · rw [if_pos (by simpa using hx)]
      rw [List.map_cons]
      rw [List.filter_map, List.map_map]
      have hcomp :
          ((List.range xs.length).filter
              ((fun i => p ((x :: xs).getD i d)) ∘ Nat.succ)).map
              ((fun i => f ((x :: xs).getD i d)) ∘ Nat.succ) =
            ((List.range xs.length).filter (fun i => p (xs.getD i d))).map
              (fun i => f (xs.getD i d)) := by
        rfl
      rw [hcomp, ih]
      rw [List.filter_cons, if_pos hx]
      rfl
    · rw [if_neg (by simpa using hx)]
      rw [List.filter_map, List.map_map]
      have hcomp :
          ((List.range xs.length).filter
              ((fun i => p ((x :: xs).getD i d)) ∘ Nat.succ)).map
              ((fun i => f ((x :: xs).getD i d)) ∘ Nat.succ) =
            ((List.range xs.length).filter (fun i => p (xs.getD i d))).map
              (fun i => f (xs.getD i d)) := by
        rfl
      rw [hcomp, ih]
      rw [List.filter_cons, if_neg (by simpa using hx)]

/-! ## Correctness of the insertion-sort phase

On ranges of at most `SMALL_QUICKSORT + 1 = 16` indices the introsort never
enters its partitioning loop and runs only the insertion-sort phase, which
is a *stable* ascending sort: the folded `insStep` keeps equal-valued
indices in their incoming order. -/

theorem insStep_decomp (v : List ℚ) (acc : List Nat) (x : Nat) :
    (acc.reverse.dropWhile (fun b => qlt (qget v x) (qget v b))).reverse ++
      (acc.reverse.takeWhile (fun b => qlt (qget v x) (qget v b))).reverse = acc := by
  rw [← List.reverse_append, List.takeWhile_append_dropWhile, List.reverse_reverse]

theorem insStep_perm (v : List ℚ) (acc : List Nat) (x : Nat) :
    List.Perm (insStep v acc x) (x :: acc) := by
  have h : List.Perm (insStep v acc x)
      (x :: ((acc.reverse.dropWhile (fun b => qlt (qget v x) (qget v b))).reverse ++
        (acc.reverse.takeWhile (fun b => qlt (qget v x) (qget v b))).reverse)) :=
    List.perm_middle
  rw [insStep_decomp] at h
  exact h

theorem foldl_insStep_perm (v : List ℚ) :
    ∀ (l acc : List Nat), List.Perm (l.foldl (insStep v) acc) (l ++ acc) := by
  intro l
  induction l with
  | nil => intro acc; simp
  | cons x xs ih =>
    intro acc
    have h1 : List.Perm ((x :: xs).foldl (insStep v) acc) (xs ++ insStep v acc x) :=
      ih (insStep v acc x)
    have h2 : List.Perm (xs ++ insStep v acc x) (xs ++ x :: acc) :=
      List.Perm.append_left xs (insStep_perm v acc x)
    have h3 : List.Perm (xs ++ x :: acc) (x :: (xs ++ acc)) := List.perm_middle
    exact ((h1.trans h2).trans h3)

theorem mem_shifted_gt (v : List ℚ) (acc : List Nat) (x b : Nat)
    (hb : b ∈ (acc.reverse.takeWhile (fun b => qlt (qget v x) (qget v b))).reverse) :
    qget v x < qget v b := by
  rw [List.mem_reverse] at hb
  have := List.mem_takeWhile_imp hb
  simpa [qlt] using this

/-- In a sorted block ending at an element no larger than the probe, every
element is no larger than the probe. -/
theorem sorted_le_of_pairwise_last (v : List ℚ) (x y : Nat) (ys : List Nat)
    (hpw : (ys.reverse ++ [y]).Pairwise (lexLt v))
    (hy : ¬ qget v x < qget v y) :
    ∀ a ∈ ys.reverse ++ [y], qget v a ≤ qget v x := by
  intro a ha
  have hyx : qget v y ≤ qget v x := not_lt.mp hy
  rcases List.mem_append.mp ha with h | h
  · have hrel := (List.pairwise_append.mp hpw).2.2 a h y (by simp)
    rcases hrel with hlt | ⟨heq, _⟩
    · exact le_of_lt (lt_of_lt_of_le hlt hyx)
    · rw [heq]; exact hyx
  · simp only [List.mem_singleton] at h
    rw [h]; exact hyx

/-- One `insStep` preserves sortedness-with-stable-ties, provided the new
index is larger than all already-inserted indices. -/
theorem insStep_pairwise (v : List ℚ) (acc : List Nat) (x : Nat)
    (hpw : acc.Pairwise (lexLt v)) (hlt : ∀ a ∈ acc, a < x) :
    (insStep v acc x).Pairwise (lexLt v) := by
  set p := fun b => qlt (qget v x) (qget v b) with hp
  set B := (acc.reverse.takeWhile p).reverse with hB
  set A := (acc.reverse.dropWhile p).reverse with hA
  have hAB : A ++ B = acc := insStep_decomp v acc x
  have hins : insStep v acc x = A ++ x :: B := rfl
  have hpw2 : (A ++ B).Pairwise (lexLt v) := by rw [hAB]; exact hpw
  obtain ⟨pwA, pwB, hcross⟩ := List.pairwise_append.mp hpw2
  have hBgt : ∀ b ∈ B, qget v x < qget v b := fun b hb => mem_shifted_gt v acc x b hb
  have hAle : ∀ a ∈ A, qget v a ≤ qget v x := by
    rcases hAr : acc.reverse.dropWhile p with _ | ⟨y, ys⟩
    · intro a ha
      rw [hA, hAr] at ha
      cases ha
    · have hpy : p y = false := dropWhile_head_false p acc.reverse y ys hAr
      have hAeq : A = ys.reverse ++ [y] := by rw [hA, hAr, List.reverse_cons]
      have hy : ¬ qget v x < qget v y := by
        rw [hp] at hpy
        simpa [qlt] using hpy
      rw [hAeq]
      exact sorted_le_of_pairwise_last v x y ys (hAeq ▸ pwA) hy
  have hmemacc : ∀ a ∈ A, a ∈ acc := by
    intro a ha
    rw [← hAB]
    exact List.mem_append.mpr (Or.inl ha)
  rw [hins]
  apply List.pairwise_append.mpr
  refine ⟨pwA, ?_, ?_⟩
  · apply List.pairwise_cons.mpr
    exact ⟨fun b hb => Or.inl (hBgt b hb), pwB⟩
  · intro a ha y hy2
    rcases List.mem_cons.mp hy2 with rfl | hyB
    · rcases lt_or_eq_of_le (hAle a ha) with hlt2 | heq2
      · exact Or.inl hlt2
      · exact Or.inr ⟨heq2, hlt a (hmemacc a ha)⟩
    · exact hcross a ha y hyB

/-- Folding `insStep` over strictly increasing indices yields a list sorted
by value with ties in index order. -/
theorem foldl_insStep_pairwise (v : List ℚ) :
    ∀ (l acc : List Nat), acc.Pairwise (lexLt v) →
      (∀ a ∈ acc, ∀ b ∈ l, a < b) → l.Pairwise (· < ·) →
      (l.foldl (insStep v) acc).Pairwise (lexLt v) := by
  intro l
  induction l with
  | nil => intro acc h _ _; simpa using h
  | cons x xs ih =>
    intro acc hpw hsep hl
    have hstep : (insStep v acc x).Pairwise (lexLt v) :=
      insStep_pairwise v acc x hpw (fun a ha => hsep a ha x (List.mem_cons_self x xs))
    have hsep' : ∀ a ∈ insStep v acc x, ∀ b ∈ xs, a < b := by
      intro a ha b hb
      have hmem := (insStep_perm v acc x).mem_iff.mp ha
      rcases List.mem_cons.mp hmem with rfl | hacc
      · exact (List.pairwise_cons.mp hl).1 b hb
      · exact hsep a hacc b (List.mem_cons_of_mem x hb)
    exact ih (insStep v acc x) hstep hsep' (List.pairwise_cons.mp hl).2


/-- On at most 16 values the introsort driver immediately runs a single
insertion-sort pass over the whole (identity) index array. -/
theorem npArgsortList_small (v : List ℚ) (h : v.length ≤ 16) :
    npArgsortList v = (List.range v.length).foldl (insStep v) [] := by
  have hguard : ¬ 15 < v.length - 1 - 0 := by omega
  have hunfold : npArgsortList v =
      insertionPass v (List.range v.length) 0 (v.length - 1) := by
    rw [npArgsortList]
    rw [show 4 * v.length + 8 = (4 * v.length + 7) + 1 from rfl]
    rw [aqsLoop]
    rw [if_neg hguard]
  rw [hunfold, insertionPass]
  have hseg : ((List.range v.length).drop 0).take (v.length - 1 + 1 - 0) =
      List.range v.length := by
    rcases Nat.eq_zero_or_pos v.length with h0 | hpos
    · rw [h0]; rfl
    · rw [List.drop_zero]
      have : v.length - 1 + 1 - 0 = v.length := by omega
      rw [this, List.take_of_length_le (by simp)]
  rw [hseg]
  have hlen : ((List.range v.length).foldl (insStep v) []).length = v.length := by
    have hperm := foldl_insStep_perm v (List.range v.length) []
    have := hperm.length_eq
    simpa using this
  rw [writeBack_eq _ _ 0 (by simp [hlen])]
  rw [hlen]
  simp

/-! ## The introsort only ever stores indices read from the array

All stores of the partition, insertion, and heapsort phases write back
either a previously loaded index or the (never actually reachable)
out-of-range default 0, so every entry of the output is below the input
length.  This justifies the fancy-indexing step `idx[np.argsort(...)]`. -/

/-- All entries below a bound. -/
def Bounded (n : Nat) (l : List Nat) : Prop := ∀ x ∈ l, x < n

theorem aget_mem_or_eq_zero (l : List Nat) (i : Nat) : aget l i ∈ l ∨ aget l i = 0 := by
  unfold aget
  by_cases h : i < l.length
  · rw [List.getD_eq_getElem _ _ h]
    exact Or.inl (List.getElem_mem h)
  · rw [getD_of_le _ _ _ (Nat.le_of_not_lt h)]
    exact Or.inr rfl

theorem bounded_set {n : Nat} {l : List Nat} (hb : Bounded n l) (i val : Nat)
    (hv : val < n ∨ val = 0) : Bounded n (l.set i val) := by
  intro x hx
  rcases List.mem_or_eq_of_mem_set hx with hxl | rfl
  · exact hb x hxl
  · rcases hv with hv | rfl
    · exact hv
    · have hne : l ≠ [] := by
        intro hnil
        rw [hnil] at hx
        simp at hx
      obtain ⟨y, hy⟩ := List.exists_mem_of_ne_nil l hne
      have := hb y hy
      omega

theorem bounded_val {n : Nat} {l : List Nat} (hb : Bounded n l) (i : Nat) :
    aget l i < n ∨ aget l i = 0 := by
  rcases aget_mem_or_eq_zero l i with h | h
  · exact Or.inl (hb _ h)
  · exact Or.inr h

theorem bounded_aswap {n : Nat} {l : List Nat} (hb : Bounded n l) (i j : Nat) :
    Bounded n (aswap l i j) := by
  unfold aswap
  have h1 : Bounded n (l.set i (aget l j)) := bounded_set hb i _ (bounded_val hb j)
  apply bounded_set h1 j
  rcases bounded_val hb i with h | h
  · exact Or.inl h
  · exact Or.inr h

theorem bounded_ite_aswap {n : Nat} (c : Prop) [Decidable c] {l : List Nat} (i j : Nat)
    (hb : Bounded n l) : Bounded n (if c then aswap l i j else l) := by
  split
  · exact bounded_aswap hb i j
  · exact hb

theorem bounded_ite {n : Nat} (c : Prop) [Decidable c] {x y : List Nat}
    (hx : Bounded n x) (hy : Bounded n y) : Bounded n (if c then x else y) := by
  split
  · exact hx
  · exact hy

theorem bounded_partLoop {n : Nat} (v : List ℚ) (vp : ℚ) (sfuel : Nat) :
    ∀ (fuel pi pj : Nat) (l : List Nat), Bounded n l →
      Bounded n (partLoop v vp sfuel fuel pi pj l).2 := by
  intro fuel
  induction fuel with
  | zero => intro pi pj l hb; exact hb
  | succ fuel ih =>
    intro pi pj l hb
    rw [partLoop]
    by_cases hc : scanDown v vp l sfuel pj ≤ scanUp v vp l sfuel pi
    · rw [if_pos hc]; exact hb
    · rw [if_neg hc]
      exact ih _ _ _ (bounded_aswap hb _ _)

theorem bounded_writeBack {n : Nat} :
    ∀ (s : List Nat) (l : List Nat) (p : Nat), Bounded n l → (∀ x ∈ s, x < n) →
      Bounded n (writeBack l p s) := by
  intro s
  induction s with
  | nil => intro l p hb _; exact hb
  | cons x xs ih =>
    intro l p hb hs
    rw [writeBack]
    apply ih _ _ (bounded_set hb p x (Or.inl (hs x (by simp))))
    intro y hy
    exact hs y (List.mem_cons_of_mem x hy)

theorem bounded_insertionPass {n : Nat} (v : List ℚ) (l : List Nat) (pl pr : Nat)
    (hb : Bounded n l) : Bounded n (insertionPass v l pl pr) := by
  rw [insertionPass]
  apply bounded_writeBack _ _ _ hb
  intro x hx
  have hperm := foldl_insStep_perm v (((l.drop pl).take (pr + 1 - pl))) []
  have hx2 : x ∈ (l.drop pl).take (pr + 1 - pl) := by
    have := hperm.mem_iff.mp hx
    simpa using this
  have hx3 : x ∈ l := by
    have h1 := List.mem_of_mem_take hx2
    exact List.mem_of_mem_drop h1
  exact hb x hx3

theorem bounded_hset {n : Nat} {l : List Nat} (hb : Bounded n l) (pl j val : Nat)
    (hv : val < n ∨ val = 0) : Bounded n (hset l pl j val) :=
  bounded_set hb _ _ hv

theorem bounded_hget {n : Nat} {l : List Nat} (hb : Bounded n l) (pl j : Nat) :
    hget l pl j < n ∨ hget l pl j = 0 := bounded_val hb _

theorem bounded_hsift {n : Nat} (v : List ℚ) (pl : Nat) (tmp : Nat) (hn : Nat) :
    ∀ (fuel i j : Nat) (l : List Nat), Bounded n l → (tmp < n ∨ tmp = 0) →
      Bounded n (hsift v pl tmp hn fuel i j l) := by
  intro fuel
  induction fuel with
  | zero => intro i j l hb ht; exact bounded_hset hb _ _ _ ht
  | succ fuel ih =>
    intro i j l hb ht
    rw [hsift]
    by_cases hj : j ≤ hn
    · rw [if_pos hj]
      by_cases hcmp : qlt (qget v tmp)
          (qget v (hget l pl (if j < hn ∧ qlt (qget v (hget l pl j)) (qget v (hget l pl (j + 1)))
            then j + 1 else j))) = true
      · rw [if_pos hcmp]
        exact ih _ _ _ (bounded_hset hb _ _ _ (bounded_hget hb _ _)) ht
      · rw [if_neg hcmp]
        exact bounded_hset hb _ _ _ ht
    · rw [if_neg hj]
      exact bounded_hset hb _ _ _ ht

theorem bounded_hbuild {n : Nat} (v : List ℚ) (pl hn : Nat) :
    ∀ (lv : Nat) (l : List Nat), Bounded n l → Bounded n (hbuild v pl hn lv l) := by
  intro lv
  induction lv with
  | zero => intro l hb; exact hb
  | succ lv ih =>
    intro l hb
    rw [hbuild]
    exact ih _ (bounded_hsift v pl _ hn _ _ _ _ hb (bounded_hget hb _ _))

theorem bounded_hextract {n : Nat} (v : List ℚ) (pl : Nat) :
    ∀ (k : Nat) (l : List Nat), Bounded n l → Bounded n (hextract v pl k l) := by
  intro k
  induction k using Nat.strong_induction_on with
  | _ k ih =>
    match k with
    | 0 => intro l hb; exact hb
    | 1 => intro l hb; exact hb
    | m + 2 =>
      intro l hb
      rw [hextract]
      apply ih (m + 1) (by omega)
      apply bounded_hsift v pl _ _ _ _ _ _
        (bounded_hset hb _ _ _ (bounded_hget hb _ _)) (bounded_hget hb _ _)

theorem bounded_aheapsortRange {n : Nat} (v : List ℚ) (l : List Nat) (pl num : Nat)
    (hb : Bounded n l) : Bounded n (aheapsortRange v l pl num) :=
  bounded_hextract v pl num _ (bounded_hbuild v pl num _ l hb)

theorem bounded_aqsLoop {n : Nat} (v : List ℚ) :
    ∀ (fuel pl pr : Nat) (l : List Nat) (stack : List (Nat × Nat)) (depth : Int),
      Bounded n l → Bounded n (aqsLoop v fuel pl pr l stack depth) := by
  intro fuel
  induction fuel with
  | zero => intro pl pr l stack depth hb; exact hb
  | succ fuel ih =>
    intro pl pr l stack depth hb
    rw [aqsLoop]
    by_cases hg : 15 < pr - pl
    · rw [if_pos hg]
      by_cases hd : depth < 0
      · rw [if_pos hd]
        have hb' := bounded_aheapsortRange v l pl (pr - pl + 1) hb
        match stack with
        | [] => exact hb'
        | (pl', pr') :: st => exact ih _ _ _ _ _ hb'
      · rw [if_neg hd]
        dsimp only
        apply bounded_ite
        · apply ih
          apply bounded_aswap
          apply bounded_partLoop
          apply bounded_aswap
          apply bounded_ite_aswap
          apply bounded_ite_aswap
          apply bounded_ite_aswap
          exact hb
        · apply ih
          apply bounded_aswap
          apply bounded_partLoop
          apply bounded_aswap
          apply bounded_ite_aswap
          apply bounded_ite_aswap
          apply bounded_ite_aswap
          exact hb
    · rw [if_neg hg]
      have hb' := bounded_insertionPass v l pl pr hb
      match stack with
      | [] => exact hb'
      | (pl', pr') :: st => exact ih _ _ _ _ _ hb'

/-- Every entry of `np.argsort(v)` is a valid position of `v`. -/
theorem npArgsortList_bounded (v : List ℚ) :
    ∀ x ∈ npArgsortList v, x < v.length := by
  apply bounded_aqsLoop
  intro x hx
  exact List.mem_range.mp hx

/-! ## Pipeline lemmas -/

theorem entriesP1_getD (sats : List SatInput) (i : Nat) :
    (entriesP1 sats).getD i sentinelEntry = computeEntry (sats.getD i dummySat) := by
  by_cases h : i < sats.length
  · exact getD_map_of_lt computeEntry sats i sentinelEntry dummySat h
  · rw [getD_of_le _ _ _ (by simpa [entriesP1] using Nat.le_of_not_lt h),
      getD_of_le _ _ _ (Nat.le_of_not_lt h)]
    rfl

theorem mem_candIdx (cfg : Config) (sunAlt : ℚ) (entries : List Entry) (i : Nat) :
    i ∈ candIdx cfg sunAlt entries ↔
      i < entries.length ∧ maskB cfg sunAlt (entries.getD i sentinelEntry) = true := by
  unfold candIdx
  rw [List.mem_filter, List.mem_range]

theorem maskB_iff (cfg : Config) (sunAlt : ℚ) (e : Entry) :
    maskB cfg sunAlt e = true ↔
      (cfg.minEl ≤ e.alt ∧
        (cfg.visibleOnly = false ∨ (e.sunlit = true ∧ sunAlt ≤ cfg.sunAltThresh))) := by
  unfold maskB isNightB
  cases hvo : cfg.visibleOnly
  · simp
  · simp

theorem candIdx_pairwise (cfg : Config) (sunAlt : ℚ) (entries : List Entry) :
    (candIdx cfg sunAlt entries).Pairwise (· < ·) :=
  (List.pairwise_lt_range entries.length).filter _

theorem candIdx_P1_eq (cfg : Config) (sunAlt : ℚ) (sats : List SatInput) :
    candIdx cfg sunAlt (entriesP1 sats) =
      (List.range sats.length).filter (fun i => satPass cfg sunAlt (sats.getD i dummySat)) := by
  unfold candIdx
  have hlen : (entriesP1 sats).length = sats.length := by simp [entriesP1]
  rw [hlen]
  congr 1
  funext i
  rw [entriesP1_getD]
  rfl

theorem negAlts_P1_eq (cfg : Config) (sunAlt : ℚ) (sats : List SatInput) :
    negAlts cfg sunAlt (entriesP1 sats) =
      (sats.filter (satPass cfg sunAlt)).map (fun t => -(computeEntry t).alt) := by
  unfold negAlts
  rw [candIdx_P1_eq]
  have hfun : (fun i => -((entriesP1 sats).getD i sentinelEntry).alt) =
      (fun i => -(computeEntry (sats.getD i dummySat)).alt) := by
    funext i
    rw [entriesP1_getD]
  rw [hfun]
  exact filter_range_getD_map (fun t => -(computeEntry t).alt) (satPass cfg sunAlt) dummySat sats

theorem candIdx_P1_lookup (cfg : Config) (sunAlt : ℚ) (sats : List SatInput) :
    (candIdx cfg sunAlt (entriesP1 sats)).map (fun i => sats.getD i dummySat) =
      sats.filter (satPass cfg sunAlt) := by
  rw [candIdx_P1_eq]
  have h := filter_range_getD_map (fun t => t) (satPass cfg sunAlt) dummySat sats
  simpa using h

theorem candIdx_P1_getD (cfg : Config) (sunAlt : ℚ) (sats : List SatInput) (k : Nat)
    (hk : k < (candIdx cfg sunAlt (entriesP1 sats)).length) :
    sats.getD ((candIdx cfg sunAlt (entriesP1 sats)).getD k 0) dummySat =
      (sats.filter (satPass cfg sunAlt)).getD k dummySat := by
  rw [← candIdx_P1_lookup cfg sunAlt sats]
  rw [getD_map_of_lt (fun i => sats.getD i dummySat) _ k dummySat 0 hk]

theorem rankedObsP1_eq (cfg : Config) (sunAlt : ℚ) (sats : List SatInput) :
    rankedObsP1 cfg sunAlt sats = obsFromPassing (sats.filter (satPass cfg sunAlt)) := by
  unfold rankedObsP1 rankedIdx obsFromPassing
  rw [List.map_map]
  rw [← negAlts_P1_eq]
  apply List.map_congr_left
  intro k hk
  have hk1 : k < (negAlts cfg sunAlt (entriesP1 sats)).length :=
    npArgsortList_bounded _ k hk
  have hk2 : k < (candIdx cfg sunAlt (entriesP1 sats)).length := by
    have : (negAlts cfg sunAlt (entriesP1 sats)).length =
        (candIdx cfg sunAlt (entriesP1 sats)).length := by
      unfold negAlts
      simp
    omega
  simp only [Function.comp_apply]
  unfold mkObs
  rw [candIdx_P1_getD cfg sunAlt sats k hk2]

theorem tickPhase1_obs_take (cfg : Config) (sunAlt : ℚ) (sats : List SatInput) :
    (tickPhase1 cfg sunAlt sats).observations =
      (rankedObsP1 cfg sunAlt sats).take (maxsatEff cfg) := by
  unfold tickPhase1 rankedObsP1 keptIdx
  exact List.map_take _ _ _

theorem filter_eraseIdx_eq {α : Type} (p : α → Bool) (d : α) :
    ∀ (l : List α) (j : Nat), j < l.length → p (l.getD j d) = false →
      (l.eraseIdx j).filter p = l.filter p := by
  intro l
  induction l with
  | nil => intro j hj _; simp at hj
  | cons x xs ih =>
    intro j hj hpj
    cases j with
    | zero =>
      have hx : p x = false := hpj
      rw [List.eraseIdx_cons_zero, List.filter_cons, if_neg (by simp [hx])]
    | succ j =>
      rw [List.eraseIdx_cons_succ, List.filter_cons, List.filter_cons]
      have hj' : j < xs.length := by simpa using hj
      rw [ih j hj' hpj]

/-! ## Azimuth range helpers -/

theorem computeEntry_az_range (s : SatInput) :
    0 ≤ (computeEntry s).az ∧ (computeEntry s).az < 360 := by
  unfold computeEntry
  match hq : s.posQuery with
  | none =>
    constructor
    · norm_num [sentinelEntry]
    · norm_num [sentinelEntry]
  | some r =>
    constructor
    · exact qmod_nonneg r.azDeg (by norm_num)
    · exact qmod_lt r.azDeg (by norm_num)

theorem computeEntryOld_az_range (s : SatInput) (e : Entry)
    (h : computeEntryOld s = some e) : 0 ≤ e.az ∧ e.az < 360 := by
  unfold computeEntryOld at h
  match hq : s.posQuery with
  | none => rw [hq] at h; cases h
  | some r =>
    rw [hq] at h
    cases h
    constructor
    · exact qmod_nonneg (r.azDeg + 360) (by norm_num)
    · exact qmod_lt (r.azDeg + 360) (by norm_num)

theorem entriesOld_mem (sats : List SatInput) (entries : List Entry)
    (h : entriesOld sats = some entries) :
    ∀ e ∈ entries, ∃ s ∈ sats, computeEntryOld s = some e := by
  induction sats generalizing entries with
  | nil =>
    cases h
    intro e he
    cases he
  | cons s ss ih =>
    rw [entriesOld] at h
    match hq : computeEntryOld s with
    | none => rw [hq] at h; cases h
    | some e0 =>
      rw [hq] at h
      match hr : entriesOld ss with
      | none => rw [hr] at h; cases h
      | some es =>
        rw [hr] at h
        cases h
        intro e he
        rcases List.mem_cons.mp he with rfl | hes
        · exact ⟨s, List.mem_cons_self s ss, hq⟩
        · obtain ⟨t, ht, hte⟩ := ih es hr e hes
          exact ⟨t, List.mem_cons_of_mem s ht, hte⟩

theorem entry_getD_az_range (entries : List Entry)
    (hall : ∀ e ∈ entries, 0 ≤ e.az ∧ e.az < 360) (i : Nat) :
    0 ≤ (entries.getD i sentinelEntry).az ∧ (entries.getD i sentinelEntry).az < 360 := by
  by_cases h : i < entries.length
  · rw [List.getD_eq_getElem _ _ h]
    exact hall _ (List.getElem_mem h)
  · rw [getD_of_le _ _ _ (Nat.le_of_not_lt h)]
    norm_num [sentinelEntry]

/-! ## Claim theorems -/

/-- C3 (confirmed): an object is a candidate for the frame iff its computed
elevation is at least `minElevation` and (visible-only mode is off, or the
object is sunlit and `isNight` holds, with `isNight = sunAlt ≤ threshold`).
This is the shared masking stage `mask = alts >= min_el;
if visible_only: mask &= sunlit & is_night; idx = np.where(mask)[0]` of both
versions. -/
theorem c3_visibility_predicate (cfg : Config) (sunAlt : ℚ) (entries : List Entry)
    (i : Nat) (hi : i < entries.length) :
    i ∈ candIdx cfg sunAlt entries ↔
      (cfg.minEl ≤ (entries.getD i sentinelEntry).alt ∧
        (cfg.visibleOnly = false ∨
          ((entries.getD i sentinelEntry).sunlit = true ∧ sunAlt ≤ cfg.sunAltThresh))) := by
  rw [mem_candIdx, maskB_iff]
  constructor
  · rintro ⟨_, h⟩
    exact h
  · intro h
    exact ⟨hi, h⟩

/-- Witness for C3 at a concrete catalog. -/
theorem c3_witness : 0 ∈ candIdx exCfg 0 (entriesP1 [exSat1]) := by
  have h := c3_visibility_predicate exCfg 0 (entriesP1 [exSat1]) 0 (by decide)
  exact h.mpr (by decide)

/-- C5 counterexample: the older version's apogee filter keeps an entry with
non-positive semi-major axis and eccentricity outside `[0,1)`, so the claim
"rejects every entry whose eccentricity lies outside [0,1) or whose
semi-major axis is non-positive" is false of that code. -/
theorem c5_counterexample :
    oldApogeeKeep (-1) (3 / 2) 500 = true ∧
      ¬ ((3 / 2 : ℚ) < 1) ∧ ¬ (0 < (-1 : ℚ)) := by
  refine ⟨?_, by norm_num, by norm_num⟩
  rw [oldApogeeKeep]
  rw [decide_eq_true_eq]
  norm_num [apogeeAlt, earthRadiusKm]

/-- C5 (amended): the Phase-1 `validate_orbital_elements` keeps an entry iff
its eccentricity is in `[0,1)`, its semi-major axis is positive, and
`apogee_altitude = a*(1+e) - 6371 ≤ maxApogee`; the older version keeps an
entry iff `apogee_altitude ≤ maxApogee` with no validity check. -/
theorem c5_validate_iff (a e m : ℚ) :
    (validateOrbitalElements a e m = true ↔
      (0 ≤ e ∧ e < 1 ∧ 0 < a ∧ apogeeAlt a e ≤ m)) ∧
    (oldApogeeKeep a e m = true ↔ apogeeAlt a e ≤ m) := by
  constructor
  · unfold validateOrbitalElements
    by_cases h : e < 0 ∨ 1 ≤ e ∨ a ≤ 0
    · rw [if_pos h]
      constructor
      · intro hfalse
        cases hfalse
      · rintro ⟨h1, h2, h3, _⟩
        rcases h with h | h | h
        · linarith
        · linarith
        · linarith
    · rw [if_neg h]
      push_neg at h
      rw [decide_eq_true_eq]
      constructor
      · intro hle
        exact ⟨h.1, h.2.1, h.2.2, hle⟩
      · rintro ⟨_, _, _, hle⟩
        exact hle
  · unfold oldApogeeKeep
    rw [decide_eq_true_eq]

/-- C6 (confirmed): `name_matches` keeps a name iff no excluded substring
occurs case-insensitively in it, and the include list is empty/absent or
some included substring occurs; an exclude match rejects regardless of any
include match. -/
theorem c6_name_filter (name : List Char) (includes excludes : List (List Char)) :
    nameMatches name includes excludes = true ↔
      ((∀ pat ∈ excludes, ¬ (pat.map Char.toLower) <:+: (name.map Char.toLower)) ∧
        (includes = [] ∨
          ∃ pat ∈ includes, (pat.map Char.toLower) <:+: (name.map Char.toLower))) := by
  unfold nameMatches lowerSubstr
  by_cases hex : excludes.any
      (fun pat => decide ((pat.map Char.toLower) <:+: (name.map Char.toLower))) = true
  · rw [if_pos hex]
    simp only [List.any_eq_true, decide_eq_true_eq] at hex
    obtain ⟨pat, hpat, hin⟩ := hex
    constructor
    · intro h
      cases h
    · rintro ⟨hno, _⟩
      exact absurd hin (hno pat hpat)
  · rw [if_neg hex]
    simp only [List.any_eq_true, decide_eq_true_eq, not_exists] at hex
    push_neg at hex
    have hexc : ∀ pat ∈ excludes, ¬ (pat.map Char.toLower) <:+: (name.map Char.toLower) := by
      intro pat hpat
      exact hex pat hpat
    by_cases hinc : includes.isEmpty = true
    · rw [if_pos hinc]
      constructor
      · intro _
        exact ⟨hexc, Or.inl (List.isEmpty_iff.mp hinc)⟩
      · intro _
        rfl
    · rw [if_neg hinc]
      simp only [List.any_eq_true, decide_eq_true_eq]
      constructor
      · rintro ⟨pat, hpat, hin⟩
        exact ⟨hexc, Or.inr ⟨pat, hpat, hin⟩⟩
      · rintro ⟨_, hor⟩
        rcases hor with hnil | ⟨pat, hpat, hin⟩
        · exfalso
          apply hinc
          rw [hnil]
          rfl
        · exact ⟨pat, hpat, hin⟩

/-- C8 counterexample: Phase-1 joins a relative `--tle-file` value wholesale
under the cache root (`tle_path = CACHE_DIR / args.tle_file`), so an input
already naming the cache-root directory produces a nested
`_skyfield_cache/_skyfield_cache/...` path rather than exactly one path
directly under the canonical root. -/
theorem c8_counterexample :
    resolveTlePhase1 ⟨false, [cacheRootName, "active.tle"]⟩ =
        ⟨false, [cacheRootName, cacheRootName, "active.tle"]⟩ ∧
      (resolveTlePhase1 ⟨false, [cacheRootName, "active.tle"]⟩).components.dropLast.count
          cacheRootName = 2 ∧
      (resolveTlePhase1 ⟨false, [cacheRootName, "active.tle"]⟩).components.length ≠ 2 := by
  refine ⟨rfl, rfl, ?_⟩
  decide

/-- C8 (amended): the *older* version's resolution maps an absolute path to
itself, and any relative input to the single path
`cache_root / final_component`, directly under the canonical cache root,
with the root directory occurring exactly once as a directory component
(never nested); the Phase-1 join lacks this normalisation. -/
theorem c8_old_resolution (p : PyPath) :
    (p.absolute = true → resolveTleOld p = p) ∧
    (p.absolute = false →
      (resolveTleOld p).absolute = false ∧
      (resolveTleOld p).components.head? = some cacheRootName ∧
      (resolveTleOld p).components.length = 2 ∧
      (resolveTleOld p).components.dropLast.count cacheRootName = 1) := by
  constructor
  · intro h
    unfold resolveTleOld
    rw [if_pos h]
  · intro h
    unfold resolveTleOld
    rw [if_neg (by simp [h])]
    exact ⟨rfl, rfl, rfl, rfl⟩

/-- Witness for C8's amended statement: an absolute input is untouched and a
relative input naming the cache root itself still resolves directly under a
single cache root. -/
theorem c8_witness :
    resolveTleOld ⟨true, ["home", "tle", "x.tle"]⟩ = ⟨true, ["home", "tle", "x.tle"]⟩ ∧
    (resolveTleOld ⟨false, [cacheRootName, "active.tle"]⟩).components.dropLast.count
        cacheRootName = 1 :=
  ⟨(c8_old_resolution ⟨true, ["home", "tle", "x.tle"]⟩).1 rfl,
    ((c8_old_resolution ⟨false, [cacheRootName, "active.tle"]⟩).2 rfl).2.2.2⟩

/-- C4 (confirmed): every azimuth in a produced frame lies in `[0, 360)` —
Phase-1 stores `az.degrees % 360.0` (or the sentinel 0 on failure), the
older version stores `(az.degrees + 360.0) % 360.0`. -/
theorem c4_azimuth_range (cfg : Config) (sunAlt : ℚ) (sats : List SatInput) :
    (∀ o ∈ (tickPhase1 cfg sunAlt sats).observations,
        0 ≤ o.azimuthDeg ∧ o.azimuthDeg < 360) ∧
    (∀ fr, tickOld cfg sunAlt sats = some fr →
        ∀ r ∈ fr.rows, 0 ≤ r.az ∧ r.az < 360) := by
  constructor
  · intro o ho
    obtain ⟨i, _, rfl⟩ := List.mem_map.mp ho
    exact computeEntry_az_range (sats.getD i dummySat)
  · intro fr hfr r hr
    unfold tickOld at hfr
    match hent : entriesOld sats with
    | none =>
      rw [hent] at hfr
      cases hfr
    | some entries =>
      rw [hent] at hfr
      cases hfr
      obtain ⟨i, _, rfl⟩ := List.mem_map.mp hr
      apply entry_getD_az_range entries
      intro e he
      obtain ⟨s, _, hs⟩ := entriesOld_mem sats entries hent e he
      exact computeEntryOld_az_range s e hs

/-- Witness for C4: the frame at a one-object catalog whose raw azimuth is
370° contains that object's observation, whose azimuth is in range. -/
theorem c4_witness :
    0 ≤ (mkObsSat exSat2).azimuthDeg ∧ (mkObsSat exSat2).azimuthDeg < 360 :=
  (c4_azimuth_range exCfg 0 [exSat2]).1 (mkObsSat exSat2)
    (by
      rw [show (tickPhase1 exCfg 0 [exSat2]).observations = [mkObsSat exSat2] from rfl]
      exact List.mem_singleton.mpr rfl)

/-- C9 (confirmed): if an object's position query succeeds but its sunlit
query raises, the `except` handler stores `sunlit = True`, so the object
stays a visibility candidate exactly when its elevation passes and (not
visible-only, or it is night) — it is not excluded on account of the failed
sunlit query.  Both versions share this handler. -/
theorem c9_sunlit_fallback (cfg : Config) (sunAlt : ℚ) (sats : List SatInput)
    (i : Nat) (r : PosQueryResult) (hi : i < sats.length)
    (hpos : (sats.getD i dummySat).posQuery = some r)
    (hsun : (sats.getD i dummySat).sunlitQuery = none) :
    (computeEntry (sats.getD i dummySat)).sunlit = true ∧
    (i ∈ candIdx cfg sunAlt (entriesP1 sats) ↔
      (cfg.minEl ≤ r.altDeg ∧
        (cfg.visibleOnly = false ∨ sunAlt ≤ cfg.sunAltThresh))) := by
  have hce : computeEntry (sats.getD i dummySat) =
      { alt := r.altDeg, az := qmod r.azDeg 360, rng := r.distKm, sunlit := true } := by
    unfold computeEntry
    rw [hpos, hsun]
    rfl
  constructor
  · rw [hce]
  · have hlen : (entriesP1 sats).length = sats.length := by simp [entriesP1]
    rw [mem_candIdx, hlen, entriesP1_getD, hce, maskB_iff]
    constructor
    · rintro ⟨_, ha, hor⟩
      refine ⟨ha, ?_⟩
      rcases hor with h | ⟨_, h⟩
      · exact Or.inl h
      · exact Or.inr h
    · rintro ⟨ha, hor⟩
      refine ⟨hi, ha, ?_⟩
      rcases hor with h | h
      · exact Or.inl h
      · exact Or.inr ⟨rfl, h⟩

/-- Witness for C9 at a concrete catalog in visible-only mode at night. -/
theorem c9_witness :
    (computeEntry ([exSatSunFail].getD 0 dummySat)).sunlit = true ∧
    (0 ∈ candIdx exCfgVis (-30) (entriesP1 [exSatSunFail]) ↔
      (exCfgVis.minEl ≤ (20 : ℚ) ∧
        (exCfgVis.visibleOnly = false ∨ (-30 : ℚ) ≤ exCfgVis.sunAltThresh))) :=
  c9_sunlit_fallback exCfgVis (-30) [exSatSunFail] 0 ⟨20, 30, 600⟩
    (by decide) (by decide) (by decide)

/-- C7 (confirmed): every frame holds at most `maxsat = max(1, args.maxsat)`
rows, and truncation keeps exactly the initial prefix of the ranked
candidate sequence (`idx = idx[:maxsat]` never reorders). -/
theorem c7_truncation (cfg : Config) (sunAlt : ℚ) (sats : List SatInput) :
    ((tickPhase1 cfg sunAlt sats).observations.length ≤ maxsatEff cfg ∧
      (tickPhase1 cfg sunAlt sats).observations =
        (rankedObsP1 cfg sunAlt sats).take (maxsatEff cfg)) ∧
    (∀ fr entries, tickOld cfg sunAlt sats = some fr → entriesOld sats = some entries →
      fr.rows.length ≤ maxsatEff cfg ∧
      fr.rows = (rankedRowsOld cfg sunAlt sats entries).take (maxsatEff cfg)) := by
  refine ⟨⟨?_, tickPhase1_obs_take cfg sunAlt sats⟩, ?_⟩
  · rw [tickPhase1_obs_take]
    exact List.length_take_le _ _
  · intro fr entries hfr hent
    unfold tickOld at hfr
    rw [hent] at hfr
    cases hfr
    constructor
    · show ((keptIdx cfg sunAlt entries).map (mkOldRow sats entries)).length ≤ maxsatEff cfg
      rw [List.length_map]
      unfold keptIdx
      exact List.length_take_le _ _
    · show (keptIdx cfg sunAlt entries).map (mkOldRow sats entries) =
        (rankedRowsOld cfg sunAlt sats entries).take (maxsatEff cfg)
      unfold keptIdx rankedRowsOld
      exact List.map_take _ _ _

/-- Witness for C7's older-version conjunct at a concrete catalog. -/
theorem c7_witness :
    ((tickOld exCfg 0 [exSat1]).getD ⟨0, false, []⟩).rows.length ≤ maxsatEff exCfg :=
  (((c7_truncation exCfg 0 [exSat1]).2 ((tickOld exCfg 0 [exSat1]).getD ⟨0, false, []⟩)
    [⟨45, qmod (100 + 360) 360, 400, true⟩] rfl rfl).1)

/-- C2 counterexample: in the older version the per-object position query is
*not* wrapped in `try/except` (only the sunlit query is), so a single
object's failing query aborts the whole tick instead of substituting
sentinels: the tick produces no frame at all. -/
theorem c2_counterexample : tickOld exCfg 0 [exSat1, exSatFail] = none := rfl

/-- C2 (amended): in the Phase-1 version, if one object's position query
raises, the handler stores the sentinels (elevation −90°, azimuth 0,
range 0, sunlit false) and the tick completes; provided the configured
minimum elevation exceeds −90° or visible-only mode is on, those sentinels
exclude the object, and the resulting frame is exactly the frame of the
catalog with that object removed — every other object's observation is
untouched.  In the older version the position query is unguarded and the
exception aborts the tick (see the counterexample). -/
theorem c2_failure_isolation (cfg : Config) (sunAlt : ℚ) (sats : List SatInput)
    (j : Nat) (hj : j < sats.length)
    (hfail : (sats.getD j dummySat).posQuery = none)
    (hexcl : -90 < cfg.minEl ∨ cfg.visibleOnly = true) :
    computeEntry (sats.getD j dummySat) = sentinelEntry ∧
    tickPhase1 cfg sunAlt sats = tickPhase1 cfg sunAlt (sats.eraseIdx j) := by
  have hce : computeEntry (sats.getD j dummySat) = sentinelEntry := by
    unfold computeEntry
    rw [hfail]
  refine ⟨hce, ?_⟩
  have hpass : satPass cfg sunAlt (sats.getD j dummySat) = false := by
    unfold satPass
    rw [hce]
    rcases hexcl with hm | hv
    · unfold maskB
      have hd : decide (cfg.minEl ≤ sentinelEntry.alt) = false := by
        apply decide_eq_false
        show ¬ cfg.minEl ≤ sentinelEntry.alt
        have : sentinelEntry.alt = -90 := rfl
        rw [this]
        exact not_le.mpr hm
      rw [hd]
      rfl
    · unfold maskB
      rw [hv]
      have : sentinelEntry.sunlit = false := rfl
      rw [this]
      simp
  have hobs : (tickPhase1 cfg sunAlt sats).observations =
      (tickPhase1 cfg sunAlt (sats.eraseIdx j)).observations := by
    rw [tickPhase1_obs_take, tickPhase1_obs_take, rankedObsP1_eq, rankedObsP1_eq]
    rw [filter_eraseIdx_eq (satPass cfg sunAlt) dummySat sats j hj hpass]
  show Frame.mk sunAlt (isNightB cfg sunAlt) (tickPhase1 cfg sunAlt sats).observations =
    Frame.mk sunAlt (isNightB cfg sunAlt) (tickPhase1 cfg sunAlt (sats.eraseIdx j)).observations
  rw [hobs]

/-- Witness for C2's amended statement at a concrete two-object catalog. -/
theorem c2_witness :
    computeEntry ([exSat1, exSatFail].getD 1 dummySat) = sentinelEntry ∧
    tickPhase1 exCfg 0 [exSat1, exSatFail] =
      tickPhase1 exCfg 0 ([exSat1, exSatFail].eraseIdx 1) :=
  c2_failure_isolation exCfg 0 [exSat1, exSatFail] 1 (by decide) rfl
    (Or.inl (by norm_num [exCfg]))

/-- With at most 16 candidates the ranking is the stable insertion sort, so
ranked indices are sorted by strictly descending elevation with equal
elevations kept in catalog order. -/
theorem rankedIdx_pairwise_small (cfg : Config) (sunAlt : ℚ) (entries : List Entry)
    (h : (candIdx cfg sunAlt entries).length ≤ 16) :
    (rankedIdx cfg sunAlt entries).Pairwise (rankRel entries) := by
  set cands := candIdx cfg sunAlt entries with hcands
  set v := negAlts cfg sunAlt entries with hv
  have hvdef : v = cands.map (fun i => -(entries.getD i sentinelEntry).alt) := rfl
  have hvlen : v.length = cands.length := by rw [hvdef, List.length_map]
  have hsmall : v.length ≤ 16 := by omega
  have hnp : npArgsortList v = (List.range v.length).foldl (insStep v) [] :=
    npArgsortList_small v hsmall
  have hsorted : ((List.range v.length).foldl (insStep v) []).Pairwise (lexLt v) :=
    foldl_insStep_pairwise v (List.range v.length) [] (by simp) (by simp)
      (List.pairwise_lt_range _)
  have hperm := foldl_insStep_perm v (List.range v.length) []
  show ((npArgsortList v).map (fun k => cands.getD k 0)).Pairwise (rankRel entries)
  rw [List.pairwise_map, hnp]
  apply List.Pairwise.imp_of_mem ?_ hsorted
  intro a b ha hb hab
  have ha2 : a ∈ List.range v.length := by simpa using hperm.mem_iff.mp ha
  have hb2 : b ∈ List.range v.length := by simpa using hperm.mem_iff.mp hb
  have haq : a < cands.length := by
    have := List.mem_range.mp ha2
    omega
  have hbq : b < cands.length := by
    have := List.mem_range.mp hb2
    omega
  have hqa : qget v a = -(entries.getD (cands.getD a 0) sentinelEntry).alt := by
    show v.getD a 0 = _
    rw [hvdef]
    exact getD_map_of_lt _ cands a 0 0 haq
  have hqb : qget v b = -(entries.getD (cands.getD b 0) sentinelEntry).alt := by
    show v.getD b 0 = _
    rw [hvdef]
    exact getD_map_of_lt _ cands b 0 0 hbq
  rcases hab with hlt | ⟨heq, hidx⟩
  · rw [hqa, hqb] at hlt
    exact Or.inl (by linarith)
  · rw [hqa, hqb] at heq
    have halt : (entries.getD (cands.getD a 0) sentinelEntry).alt =
        (entries.getD (cands.getD b 0) sentinelEntry).alt := by linarith
    refine Or.inr ⟨halt, ?_⟩
    have hpairw := candIdx_pairwise cfg sunAlt entries
    have hget := List.pairwise_iff_get.mp hpairw ⟨a, haq⟩ ⟨b, hbq⟩ (by exact hidx)
    have hga : cands.getD a 0 = cands.get ⟨a, haq⟩ := by
      rw [List.getD_eq_getElem _ _ haq]
      rfl
    have hgb : cands.getD b 0 = cands.get ⟨b, hbq⟩ := by
      rw [List.getD_eq_getElem _ _ hbq]
      rfl
    rw [hga, hgb]
    exact hget

/-- C1 (amended): whenever at most 16 objects pass the visibility mask, the
frame's observations are ranked by strictly non-increasing elevation with
equal elevations in catalog order (numpy's introsort stays in its stable
insertion-sort phase below the `SMALL_QUICKSORT` cutoff); the frame is the
truncated image of that ranked index sequence.  For larger candidate sets
the elevations are still ranked by `np.argsort`, but its partitioning phase
is not stable and equal elevations may leave catalog order (see the
counterexample). -/
theorem c1_stable_rank (cfg : Config) (sunAlt : ℚ) (sats : List SatInput)
    (h : (candIdx cfg sunAlt (entriesP1 sats)).length ≤ 16) :
    (rankedIdx cfg sunAlt (entriesP1 sats)).Pairwise (rankRel (entriesP1 sats)) ∧
    (tickPhase1 cfg sunAlt sats).observations =
      ((rankedIdx cfg sunAlt (entriesP1 sats)).take (maxsatEff cfg)).map (mkObs sats) ∧
    (tickPhase1 cfg sunAlt sats).observations.Pairwise
      (fun o1 o2 => o2.elevationDeg ≤ o1.elevationDeg) := by
  have hpw := rankedIdx_pairwise_small cfg sunAlt (entriesP1 sats) h
  refine ⟨hpw, rfl, ?_⟩
  show (((rankedIdx cfg sunAlt (entriesP1 sats)).take (maxsatEff cfg)).map
      (mkObs sats)).Pairwise (fun o1 o2 => o2.elevationDeg ≤ o1.elevationDeg)
  rw [List.pairwise_map]
  have htake : ((rankedIdx cfg sunAlt (entriesP1 sats)).take (maxsatEff cfg)).Pairwise
      (rankRel (entriesP1 sats)) := hpw.sublist (List.take_sublist _ _)
  apply htake.imp
  intro i j hij
  have hei : (mkObs sats i).elevationDeg = ((entriesP1 sats).getD i sentinelEntry).alt := by
    show (mkObsSat (sats.getD i dummySat)).elevationDeg = _
    rw [entriesP1_getD]
    rfl
  have hej : (mkObs sats j).elevationDeg = ((entriesP1 sats).getD j sentinelEntry).alt := by
    show (mkObsSat (sats.getD j dummySat)).elevationDeg = _
    rw [entriesP1_getD]
    rfl
  rw [hei, hej]
  rcases hij with hlt | ⟨heq, _⟩
  · exact le_of_lt hlt
  · exact le_of_eq heq.symm

/-- Witness for C1's amended statement at a concrete two-object catalog. -/
theorem c1_witness :
    (candIdx exCfg 0 (entriesP1 [exSat1, exSat2])).length ≤ 16 ∧
    (rankedIdx exCfg 0 (entriesP1 [exSat1, exSat2])).Pairwise
      (rankRel (entriesP1 [exSat1, exSat2])) :=
  ⟨by decide, (c1_stable_rank exCfg 0 [exSat1, exSat2] (by decide)).1⟩

/-- C1 counterexample: seventeen objects with exactly equal elevations.
numpy's introsort partitioning reorders them
(`np.argsort` of 17 equal keys is `[0,14,13,12,11,10,9,15,8,6,5,4,3,2,1,7,16]`,
not the identity), so equal-elevation observations do *not* keep catalog
order: the claimed stable rank relation fails on the frame's index sequence,
and the frame's rows carry the permuted catalog ids. -/
theorem c1_counterexample :
    ¬ (rankedIdx exCfg 0 (entriesP1 tieSats)).Pairwise (rankRel (entriesP1 tieSats)) ∧
    (tickPhase1 exCfg 0 tieSats).observations.map (fun o => o.noradId) =
      [0, 14, 13, 12, 11, 10, 9, 15, 8, 6, 5, 4, 3, 2, 1, 7, 16] := by
  constructor
  · decide
  · decide

/-! ## Idempotence of `abbreviate_name`

A `stripDelims o c` pass leaves exactly the `NoPair o c` strings unchanged,
produces such a string, and both the other pass and whitespace collapsing
preserve the property; whitespace collapsing is itself idempotent. -/

theorem noPair_append (o c : Char) :
    ∀ l₁ l₂ : List Char, NoPair o c (l₁ ++ l₂) ↔
      NoPair o c l₁ ∧ NoPair o c l₂ ∧ (o ∈ l₁ → c ∉ l₂) := by
  intro l₁
  induction l₁ with
  | nil =>
    intro l₂
    constructor
    · intro h
      exact ⟨trivial, h, by intro hmem; cases hmem⟩
    · rintro ⟨_, h, _⟩
      exact h
  | cons x xs ih =>
    intro l₂
    constructor
    · rintro ⟨hx, hrest⟩
      obtain ⟨h1, h2, h3⟩ := (ih l₂).mp hrest
      refine ⟨⟨?_, h1⟩, h2, ?_⟩
      · intro hxo
        intro hc
        exact hx hxo (List.mem_append.mpr (Or.inl hc))
      · intro ho
        rcases List.mem_cons.mp ho with rfl | hoxs
        · intro hc
          exact hx rfl (List.mem_append.mpr (Or.inr hc))
        · exact h3 hoxs
    · rintro ⟨⟨hx, hxs⟩, h2, h3⟩
      refine ⟨?_, (ih l₂).mpr ⟨hxs, h2, fun ho => h3 (List.mem_cons_of_mem x ho)⟩⟩
      intro hxo hc
      rcases List.mem_append.mp hc with hc1 | hc2
      · exact hx hxo hc1
      · exact h3 (hxo ▸ List.mem_cons_self x xs) hc2

theorem noPair_sublist (o c : Char) :
    ∀ {l' l : List Char}, l'.Sublist l → NoPair o c l → NoPair o c l' := by
  intro l' l hsub
  induction hsub with
  | slnil => intro _; trivial
  | cons a hsub ih =>
    rintro ⟨_, hrest⟩
    exact ih hrest
  | cons₂ a hsub ih =>
    rintro ⟨ha, hrest⟩
    refine ⟨?_, ih hrest⟩
    intro hao hc
    exact ha hao (hsub.subset hc)

theorem strip_sublist (o c : Char) (l : List Char) : (stripDelims o c l).Sublist l := by
  induction l using stripDelims.induct o c with
  | case1 => simp [stripDelims]
  | case2 x xs hcond ih =>
    rw [stripDelims, if_pos hcond]
    have h1 : ((xs.dropWhile (fun ch => ch ≠ c)).drop 1).Sublist xs :=
      ((List.drop_sublist _ _).trans (List.dropWhile_sublist _))
    exact (ih.trans h1).trans (List.sublist_cons_self x xs)
  | case3 x xs hcond ih =>
    rw [stripDelims, if_neg hcond]
    exact ih.cons₂ x

theorem strip_subset (o c : Char) (l : List Char) :
    ∀ y ∈ stripDelims o c l, y ∈ l :=
  fun _ hy => (strip_sublist o c l).subset hy

theorem strip_noPair (o c : Char) (l : List Char) : NoPair o c (stripDelims o c l) := by
  induction l using stripDelims.induct o c with
  | case1 => rw [stripDelims]; trivial
  | case2 x xs hcond ih =>
    rw [stripDelims, if_pos hcond]
    exact ih
  | case3 x xs hcond ih =>
    rw [stripDelims, if_neg hcond]
    refine ⟨?_, ih⟩
    intro hxo hc
    apply hcond
    exact ⟨hxo, strip_subset o c xs c hc⟩

theorem strip_fixed (o c : Char) :
    ∀ l : List Char, NoPair o c l → stripDelims o c l = l := by
  intro l
  induction l with
  | nil => intro _; rw [stripDelims]
  | cons x xs ih =>
    rintro ⟨hx, hxs⟩
    rw [stripDelims]
    rw [if_neg ?_]
    · rw [ih hxs]
    · rintro ⟨hxo, hc⟩
      exact hx hxo hc

theorem takeWhile_append_stop {α : Type} (p : α → Bool) :
    ∀ (w : List α) (y : α) (t : List α), (∀ a ∈ w, p a = true) → p y = false →
      ((w ++ y :: t).takeWhile p = w ∧ (w ++ y :: t).dropWhile p = y :: t) := by
  intro w
  induction w with
  | nil =>
    intro y t _ hy
    constructor
    · rw [List.nil_append, List.takeWhile_cons, if_neg (by simp [hy])]
    · rw [List.nil_append, List.dropWhile_cons, if_neg (by simp [hy])]
  | cons a as ih =>
    intro y t hall hy
    have ha : p a = true := hall a (List.mem_cons_self a as)
    obtain ⟨h1, h2⟩ := ih y t (fun b hb => hall b (List.mem_cons_of_mem a hb)) hy
    constructor
    · rw [List.cons_append, List.takeWhile_cons, if_pos (by simp [ha]), h1]
    · rw [List.cons_append, List.dropWhile_cons, if_pos (by simp [ha]), h2]

theorem wordsOf_subset :
    ∀ l : List Char, ∀ w ∈ wordsOf l, ∀ ch ∈ w, ch ∈ l := by
  intro l
  induction l using wordsOf.induct with
  | case1 =>
    intro w hw
    rw [wordsOf] at hw
    cases hw
  | case2 x xs hcond ih =>
    intro w hw ch hch
    rw [wordsOf, if_pos hcond] at hw
    exact List.mem_cons_of_mem x (ih w hw ch hch)
  | case3 x xs hcond ih =>
    intro w hw ch hch
    rw [wordsOf, if_neg hcond] at hw
    rcases List.mem_cons.mp hw with rfl | hrest
    · rcases List.mem_cons.mp hch with rfl | htw
      · exact List.mem_cons_self ch xs
      · exact List.mem_cons_of_mem x ((List.takeWhile_sublist _).subset htw)
    · have := ih w hrest ch hch
      exact List.mem_cons_of_mem x ((List.dropWhile_sublist _).subset this)

theorem wordsOf_good :
    ∀ l : List Char, ∀ w ∈ wordsOf l, w ≠ [] ∧ ∀ ch ∈ w, wsChar ch = false := by
  intro l
  induction l using wordsOf.induct with
  | case1 =>
    intro w hw
    rw [wordsOf] at hw
    cases hw
  | case2 x xs hcond ih =>
    intro w hw
    rw [wordsOf, if_pos hcond] at hw
    exact ih w hw
  | case3 x xs hcond ih =>
    intro w hw
    rw [wordsOf, if_neg hcond] at hw
    rcases List.mem_cons.mp hw with rfl | hrest
    · refine ⟨by simp, ?_⟩
      intro ch hch
      rcases List.mem_cons.mp hch with rfl | htw
      · exact Bool.not_eq_true _ |>.mp hcond
      · have := List.mem_takeWhile_imp htw
        simpa using this
    · exact ih w hrest

theorem wordsOf_single (w : List Char) (hne : w ≠ [])
    (hws : ∀ ch ∈ w, wsChar ch = false) : wordsOf w = [w] := by
  match w, hne with
  | x :: xs, _ =>
    rw [wordsOf]
    rw [if_neg (by simp [hws x (List.mem_cons_self x xs)])]
    have h1 : xs.takeWhile (fun ch => ¬ wsChar ch) = xs := by
      rw [List.takeWhile_eq_self_iff]
      intro a ha
      simp [hws a (List.mem_cons_of_mem x ha)]
    have h2 : xs.dropWhile (fun ch => ¬ wsChar ch) = [] := by
      rw [List.dropWhile_eq_nil_iff]
      intro a ha
      simp [hws a (List.mem_cons_of_mem x ha)]
    rw [h1, h2, wordsOf]

theorem wordsOf_append_sep (w rest : List Char) (hne : w ≠ [])
    (hws : ∀ ch ∈ w, wsChar ch = false) :
    wordsOf (w ++ ' ' :: rest) = w :: wordsOf rest := by
  match w, hne with
  | x :: xs, _ =>
    rw [List.cons_append, wordsOf]
    rw [if_neg (by simp [hws x (List.mem_cons_self x xs)])]
    obtain ⟨h1, h2⟩ := takeWhile_append_stop (fun ch => ¬ wsChar ch) xs ' ' rest
      (fun a ha => by simp [hws a (List.mem_cons_of_mem x ha)])
      (by simp [wsChar])
    rw [h1, h2]
    rw [wordsOf]
    rw [if_pos (by simp [wsChar])]

theorem wordsOf_joinSp :
    ∀ ws : List (List Char),
      (∀ w ∈ ws, w ≠ [] ∧ ∀ ch ∈ w, wsChar ch = false) →
      wordsOf (joinSp ws) = ws := by
  intro ws
  induction ws with
  | nil =>
    intro _
    rw [joinSp, wordsOf]
  | cons w ws' ih =>
    intro hall
    obtain ⟨hne, hws⟩ := hall w (List.mem_cons_self w ws')
    match ws' with
    | [] =>
      show wordsOf (joinSp [w]) = [w]
      rw [joinSp]
      exact wordsOf_single w hne hws
    | w2 :: ws'' =>
      show wordsOf (joinSp (w :: w2 :: ws'')) = w :: w2 :: ws''
      rw [show joinSp (w :: w2 :: ws'') = w ++ ' ' :: joinSp (w2 :: ws'') from rfl]
      rw [wordsOf_append_sep w _ hne hws]
      rw [ih (fun v hv => hall v (List.mem_cons_of_mem w hv))]

theorem mem_joinSp :
    ∀ (ws : List (List Char)) (ch : Char), ch ∈ joinSp ws →
      ch = ' ' ∨ ∃ w ∈ ws, ch ∈ w := by
  intro ws
  induction ws with
  | nil =>
    intro ch hch
    rw [joinSp] at hch
    cases hch
  | cons w ws' ih =>
    intro ch hch
    match ws' with
    | [] =>
      rw [joinSp] at hch
      exact Or.inr ⟨w, List.mem_cons_self w [], hch⟩
    | w2 :: ws'' =>
      rw [show joinSp (w :: w2 :: ws'') = w ++ ' ' :: joinSp (w2 :: ws'') from rfl] at hch
      rcases List.mem_append.mp hch with h | h
      · exact Or.inr ⟨w, List.mem_cons_self w _, h⟩
      · rcases List.mem_cons.mp h with rfl | h2
        · exact Or.inl rfl
        · rcases ih ch h2 with h3 | ⟨v, hv, hchv⟩
          · exact Or.inl h3
          · exact Or.inr ⟨v, List.mem_cons_of_mem w hv, hchv⟩

theorem np_joinSp (o c : Char) (ho : o ≠ ' ') (hc : c ≠ ' ') :
    ∀ ws : List (List Char), (∀ w ∈ ws, NoPair o c w) →
      ws.Pairwise (fun w1 w2 => o ∈ w1 → c ∉ w2) → NoPair o c (joinSp ws) := by
  intro ws
  induction ws with
  | nil =>
    intro _ _
    rw [joinSp]
    trivial
  | cons w ws' ih =>
    intro hall hpw
    match ws' with
    | [] =>
      rw [joinSp]
      exact hall w (List.mem_cons_self w [])
    | w2 :: ws'' =>
      rw [show joinSp (w :: w2 :: ws'') = w ++ ' ' :: joinSp (w2 :: ws'') from rfl]
      apply (noPair_append o c _ _).mpr
      refine ⟨hall w (List.mem_cons_self w _), ⟨?_, ?_⟩, ?_⟩
      · intro hsp
        exact absurd hsp.symm ho
      · exact ih (fun v hv => hall v (List.mem_cons_of_mem w hv))
          (List.pairwise_cons.mp hpw).2
      · intro how hcw
        rcases List.mem_cons.mp hcw with hcsp | hcj
        · exact hc hcsp
        · rcases mem_joinSp _ c hcj with hcsp | ⟨v, hv, hcv⟩
          · exact hc hcsp
          · exact (List.pairwise_cons.mp hpw).1 v hv how hcv

theorem np_wordsOf (o c : Char) :
    ∀ l : List Char, NoPair o c l →
      (∀ w ∈ wordsOf l, NoPair o c w) ∧
        (wordsOf l).Pairwise (fun w1 w2 => o ∈ w1 → c ∉ w2) := by
  intro l
  induction l using wordsOf.induct with
  | case1 =>
    intro _
    rw [wordsOf]
    exact ⟨fun w hw => absurd hw (by simp), List.Pairwise.nil⟩
  | case2 x xs hcond ih =>
    rintro ⟨_, hxs⟩
    rw [wordsOf, if_pos hcond]
    exact ih hxs
  | case3 x xs hcond ih =>
    rintro ⟨hx, hxs⟩
    rw [wordsOf, if_neg hcond]
    have hsplit : xs.takeWhile (fun ch => ¬ wsChar ch) ++
        xs.dropWhile (fun ch => ¬ wsChar ch) = xs := List.takeWhile_append_dropWhile ..
    have hxs2 : NoPair o c (xs.takeWhile (fun ch => ¬ wsChar ch) ++
        xs.dropWhile (fun ch => ¬ wsChar ch)) := by rw [hsplit]; exact hxs
    obtain ⟨nptw, npdw, hcross⟩ := (noPair_append o c _ _).mp hxs2
    obtain ⟨ihw, ihpw⟩ := ih npdw
    constructor
    · intro w hw
      rcases List.mem_cons.mp hw with rfl | hrest
      · refine ⟨?_, nptw⟩
        intro hxo hctw
        exact hx hxo ((List.takeWhile_sublist _).subset hctw)
      · exact ihw w hrest
    · apply List.pairwise_cons.mpr
      refine ⟨?_, ihpw⟩
      intro w' hw' how hcw'
      have hcdw : c ∈ xs.dropWhile (fun ch => ¬ wsChar ch) :=
        wordsOf_subset _ w' hw' c hcw'
      rcases List.mem_cons.mp how with rfl | hotw
      · exact hx rfl ((List.dropWhile_sublist _).subset hcdw)
      · exact hcross hotw hcdw

theorem collapseWs_idem (l : List Char) : collapseWs (collapseWs l) = collapseWs l := by
  show joinSp (wordsOf (joinSp (wordsOf l))) = joinSp (wordsOf l)
  rw [wordsOf_joinSp (wordsOf l) (wordsOf_good l)]

theorem np_collapse (o c : Char) (ho : o ≠ ' ') (hc : c ≠ ' ') (l : List Char)
    (h : NoPair o c l) : NoPair o c (collapseWs l) := by
  obtain ⟨h1, h2⟩ := np_wordsOf o c l h
  exact np_joinSp o c ho hc (wordsOf l) h1 h2

/-- C10 (confirmed): `abbreviate_name` is idempotent — after one pass no
removable `[...]` or `(...)` segment remains and whitespace is already
collapsed, so a second pass changes nothing. -/
theorem c10_abbreviate_idempotent (s : List Char) :
    abbreviateName (abbreviateName s) = abbreviateName s := by
  show collapseWs (stripDelims '(' ')' (stripDelims '[' ']'
      (collapseWs (stripDelims '(' ')' (stripDelims '[' ']' s))))) =
    collapseWs (stripDelims '(' ')' (stripDelims '[' ']' s))
  have npbr : NoPair '[' ']' (stripDelims '(' ')' (stripDelims '[' ']' s)) :=
    noPair_sublist '[' ']' (strip_sublist '(' ')' _) (strip_noPair '[' ']' s)
  have nppa : NoPair '(' ')' (stripDelims '(' ')' (stripDelims '[' ']' s)) :=
    strip_noPair '(' ')' _
  have npbrC : NoPair '[' ']'
      (collapseWs (stripDelims '(' ')' (stripDelims '[' ']' s))) :=
    np_collapse _ _ (by decide) (by decide) _ npbr
  have nppaC : NoPair '(' ')'
      (collapseWs (stripDelims '(' ')' (stripDelims '[' ']' s))) :=
    np_collapse _ _ (by decide) (by decide) _ nppa
  rw [strip_fixed '[' ']' _ npbrC]
  rw [strip_fixed '(' ')' _ nppaC]
  exact collapseWs_idem _

end VisEph
